import Mathlib

/-!
Verification development for the GraphQOL analysis engine (`app.py`).

The definitions below are a shallow embedding of the pure core of the
source file: the named-type resolution helper `_extract_named_type`, the
engine fingerprint classifier `detect_engine`, the type-graph builder
`build_schema_artifacts`, the audit orchestrator `run_graphql_cop_audit`,
and the post-transport body of the `/api/analyze` handler.

Modelling conventions:
* Python dictionaries with a fixed field set become structures with
  `Option` fields; a `none` field models an absent or JSON-null key
  (the two are conflated except where a claim depends on the difference,
  which is noted at the definition concerned).
* Python dictionaries used as finite maps (header mappings) become
  association lists; the comprehension `\x7bk.lower(): v.lower()\x7d` is
  modelled by a fold that reproduces CPython insert-or-overwrite
  semantics, including the collapse of keys that agree after lowercasing.
* `str.lower` is modelled by mapping `Char.toLower` over the characters,
  which agrees with CPython on ASCII data; the engine literals searched
  for are all ASCII.
* Python's stable `sorted` is modelled by `List.insertionSort`, which is
  also stable, with the same comparison key.
-/

/-- One level of the recursive `TypeRef` fragment: `kind`, optional
`name`, and an optional nested `ofType`.  The JSON `ofType` field being
absent/null is the `leaf` constructor; present is the `wrap`
constructor. -/
inductive TypeRef where
  | leaf (kind : Option String) (name : Option String)
  | wrap (kind : Option String) (name : Option String) (ofType : TypeRef)
deriving DecidableEq, Repr

/-- Python truthiness of an optional string (`if name:`): `None` and the
empty string are falsy. -/
def pyTruthy (o : Option String) : Bool :=
  match o with
  | some s => s ≠ ""
  | none => false

/-- The `ofType`-unwrapping loop of `_extract_named_type`, on one
`TypeRef` level: return `name` as soon as it is truthy, otherwise follow
`ofType`. -/
def extractNamedTypeLoop : TypeRef → Option String
  | .leaf _ n => if pyTruthy n then n else none
  | .wrap _ n t => if pyTruthy n then n else extractNamedTypeLoop t

/-- `_extract_named_type(type_obj)`: walk `ofType` links until a truthy
`name` is found; `None` when the argument is `None` or the chain is
exhausted. -/
def _extract_named_type : Option TypeRef → Option String
  | none => none
  | some t => extractNamedTypeLoop t

/-- The list of `name` entries along a `TypeRef` unwrap chain, outermost
first. -/
def chainNames : TypeRef → List (Option String)
  | .leaf _ n => [n]
  | .wrap _ n t => n :: chainNames t

/-- Nesting depth of a `TypeRef` chain (number of `ofType` links). -/
def chainDepth : TypeRef → Nat
  | .leaf _ _ => 0
  | .wrap _ _ t => chainDepth t + 1

/-- A field of an object type: `name` and `type` keys. -/
structure GQLField where
  name : Option String
  type : Option TypeRef
deriving DecidableEq, Repr

/-- One entry of the introspected `types` list: the keys
`build_schema_artifacts` and `detect_engine` read. -/
structure GQLType where
  kind : Option String
  name : Option String
  fields : Option (List GQLField)
deriving DecidableEq, Repr

/-- One entry of the introspected `directives` list. -/
structure GQLDirective where
  name : Option String
deriving DecidableEq, Repr

/-- The value of the `__schema` key. -/
structure GQLSchema where
  types : Option (List GQLType)
  directives : Option (List GQLDirective)
deriving DecidableEq, Repr

/-- The `data` value of an introspection response: an object that may or
may not carry the `__schema` key. -/
structure SchemaData where
  schemaOpt : Option GQLSchema
deriving DecidableEq, Repr

/-- `schema_data.get("__schema", \x7b\x7d)`. -/
def schemaOf (sd : SchemaData) : GQLSchema :=
  sd.schemaOpt.getD ⟨none, none⟩

/-! ### Character-list string utilities

Python string operations (`in`, `.lower()`, `.startswith`, `<=`) are
modelled over `String.data` so that every definition reduces in the
kernel. -/

/-- `pat` matches at the head of `l` (prefix test). -/
def matchAt : List Char → List Char → Bool
  | [], _ => true
  | _ :: _, [] => false
  | p :: ps, c :: cs => p == c && matchAt ps cs

/-- `pat` occurs as a contiguous subsequence of `l` (Python `pat in s`
on the character lists). -/
def hasSub (pat : List Char) : List Char → Bool
  | [] => pat.isEmpty
  | c :: cs => matchAt pat (c :: cs) || hasSub pat cs

/-- Python `pat in s` for strings. -/
def strContains (s pat : String) : Bool :=
  hasSub pat.data s.data

/-- Python `s.startswith(pat)`. -/
def pyStartsWith (s pat : String) : Bool :=
  matchAt pat.data s.data

/-- Python `s.lower()` (ASCII case folding, which is all the source
compares). -/
def pyLower (s : String) : String :=
  ⟨s.data.map Char.toLower⟩

/-- Lexicographic comparison of character lists by code point, the order
Python uses for `sorted` over strings. -/
def lexLe : List Char → List Char → Bool
  | [], _ => true
  | _ :: _, [] => false
  | a :: as, b :: bs =>
    if a.toNat < b.toNat then true
    else if b.toNat < a.toNat then false
    else lexLe as bs

/-- Python `s <= t` for strings. -/
def strLe (s t : String) : Bool :=
  lexLe s.data t.data

/-! ### Python dict-as-map operations -/

/-- `d[k] = v` on an association list with CPython semantics: an
existing key keeps its position and gets the new value; a new key is
appended. -/
def pyDictSet (m : List (String × String)) (k v : String) : List (String × String) :=
  if m.any (fun p => p.1 == k) then m.map (fun p => if p.1 == k then (p.1, v) else p)
  else m ++ [(k, v)]

/-- `d.update(items)` / building a dict by successive assignment. -/
def pyDictUpdate (m : List (String × String)) : List (String × String) → List (String × String)
  | [] => m
  | (k, v) :: rest => pyDictUpdate (pyDictSet m k v) rest

/-- A dict comprehension over `l` (insert each pair left to right into
an empty dict). -/
def pyDictOfList (l : List (String × String)) : List (String × String) :=
  pyDictUpdate [] l

/-! ### Engine fingerprint classifier (`detect_engine`) -/

/-- `" ".join([f"\x7bk\x7d:\x7bv\x7d" for k, v in lower_headers.items()])`. -/
def joinPairs : List (String × String) → String
  | [] => ""
  | [p] => p.1 ++ ":" ++ p.2
  | p :: q :: rest => p.1 ++ ":" ++ p.2 ++ " " ++ joinPairs (q :: rest)

/-- `" ".join(strings)`. -/
def joinSpace : List String → String
  | [] => ""
  | [s] => s
  | s :: t :: rest => s ++ " " ++ joinSpace (t :: rest)

/-- `\x7bk.lower(): str(v).lower() for k, v in response_headers.items()\x7d`. -/
def lowerHeaders (hs : List (String × String)) : List (String × String) :=
  pyDictOfList (hs.map (fun p => (pyLower p.1, pyLower p.2)))

/-- The searchable header blob of `detect_engine`. -/
def headerBlob (hs : List (String × String)) : String :=
  joinPairs (lowerHeaders hs)

/-- The lowercased directive-name set (modelled as a list; only
membership is consulted). -/
def directiveNames (sd : SchemaData) : List String :=
  ((schemaOf sd).directives.getD []).map (fun d => pyLower (d.name.getD ""))

/-- The type-name set `\x7bt.get("name", "") for t in types\x7d` (modelled as a
list; only membership and space-joined substring search are consulted,
both of which are insensitive to the set's deduplication and iteration
order because the searched literals contain no space). -/
def typeNamesOf (sd : SchemaData) : List String :=
  ((schemaOf sd).types.getD []).map (fun t => t.name.getD "")

/-- `" ".join(type_names).lower()`. -/
def typeBlob (sd : SchemaData) : String :=
  pyLower (joinSpace (typeNamesOf sd))

/-- Accumulated Apollo score: +3 for `"apollo"` in the header blob, +2
for a `cachecontrol` directive. -/
def scoreApollo (sd : SchemaData) (hs : List (String × String)) : Nat :=
  (if strContains (headerBlob hs) "apollo" then 3 else 0) +
  (if "cachecontrol" ∈ directiveNames sd then 2 else 0)

/-- Accumulated Hasura score: +3 for `"hasura"` in the header blob, +2
for a `cached`/`frontend` directive, +2 for a `query_root` type name. -/
def scoreHasura (sd : SchemaData) (hs : List (String × String)) : Nat :=
  (if strContains (headerBlob hs) "hasura" then 3 else 0) +
  (if "cached" ∈ directiveNames sd ∨ "frontend" ∈ directiveNames sd then 2 else 0) +
  (if "query_root" ∈ (typeNamesOf sd).map pyLower then 2 else 0)

/-- Accumulated graphene-python score: +3 for `"graphene"` in the header
blob. -/
def scoreGraphene (sd : SchemaData) (hs : List (String × String)) : Nat :=
  (if strContains (headerBlob hs) "graphene" then 3 else 0)

/-- Accumulated PostGraphile score: +3 for `"postgraphile"` in the
header blob, +1 for `"relay"` in the type blob, +1 for a type literally
named `pageinfo`. -/
def scorePostGraphile (sd : SchemaData) (hs : List (String × String)) : Nat :=
  (if strContains (headerBlob hs) "postgraphile" then 3 else 0) +
  (if strContains (typeBlob sd) "relay" then 1 else 0) +
  (if "pageinfo" ∈ typeNamesOf sd then 1 else 0)

/-- Accumulated Ariadne score: +3 for `"ariadne"` in the header blob. -/
def scoreAriadne (sd : SchemaData) (hs : List (String × String)) : Nat :=
  (if strContains (headerBlob hs) "ariadne" then 3 else 0)

/-- Accumulated Hot Chocolate score: +3 for `"hotchocolate"` or
`"chilli"` in the header blob. -/
def scoreHotChocolate (sd : SchemaData) (hs : List (String × String)) : Nat :=
  (if strContains (headerBlob hs) "hotchocolate" ∨ strContains (headerBlob hs) "chilli"
   then 3 else 0)

/-- The `scored` dict of `detect_engine`, in its declaration
(= iteration) order. -/
def scoreTable (sd : SchemaData) (hs : List (String × String)) : List (String × Nat) :=
  [("Apollo", scoreApollo sd hs),
   ("Hasura", scoreHasura sd hs),
   ("graphene-python", scoreGraphene sd hs),
   ("PostGraphile", scorePostGraphile sd hs),
   ("Ariadne", scoreAriadne sd hs),
   ("Hot Chocolate", scoreHotChocolate sd hs)]

/-- CPython `max(scored, key=...)` keeps the current maximum and
replaces it only on a strictly greater key, so the first maximal entry
wins.  The entry is carried as a pair; because the six table keys are
distinct literals this also models the subsequent `scored[best_engine]`
lookup. -/
def pickBest (b : String × Nat) : List (String × Nat) → String × Nat
  | [] => b
  | q :: rest => pickBest (if b.2 < q.2 then q else b) rest

/-- `max` over a non-empty score table (the table of `detect_engine` is
always the six-entry literal). -/
def bestOf : List (String × Nat) → String × Nat
  | [] => ("Unknown", 0)
  | b :: rest => pickBest b rest

/-- The `ENGINE_SECURITY_NOTES` table. -/
def engineSecurityNotes (e : String) : List String :=
  match e with
  | "Apollo" =>
    ["Disable introspection and GraphQL Playground in production.",
     "Apply query depth and complexity limits to prevent DoS.",
     "Avoid detailed stack traces and GraphQL error internals in responses."]
  | "Hasura" =>
    ["Require strict admin secret/JWT validation and rotate credentials.",
     "Harden row/column permission policies for every role.",
     "Disable metadata/admin endpoints from public exposure."]
  | "graphene-python" =>
    ["Disable debug middleware and tracing extensions in production.",
     "Add rate limiting and query cost control to endpoint.",
     "Disable GraphiQL on internet-facing deployments."]
  | "PostGraphile" =>
    ["Constrain role privileges and schema exposure at DB level.",
     "Use persisted queries / allow-lists for sensitive operations.",
     "Disable detailed error hints leaking SQL metadata."]
  | "Ariadne" =>
    ["Turn off debug mode and rich tracebacks in production.",
     "Apply operation depth and complexity guards.",
     "Restrict introspection where not needed."]
  | "Hot Chocolate" =>
    ["Disable Banana Cake Pop / tooling endpoints on production.",
     "Use cost analysis middleware and request timeout limits.",
     "Harden authorization directives and resolver-level checks."]
  | "Unknown" =>
    ["Apply strict authZ/authN controls on each resolver path.",
     "Use query complexity, depth, and rate limiting protections.",
     "Disable introspection/UI tooling for public production endpoints."]
  | _ => []

/-- The record returned by `detect_engine`. -/
structure EngineResult where
  engine : String
  confidence : Nat
  security_notes : List String
  signals : List (String × Nat)
deriving DecidableEq, Repr

/-- `detect_engine(schema_data, response_headers)`. -/
def detect_engine (sd : SchemaData) (hs : List (String × String)) : EngineResult :=
  let scored := scoreTable sd hs
  let best := bestOf scored
  let engine := if best.2 = 0 then "Unknown" else best.1
  ⟨engine, best.2, engineSecurityNotes engine, scored⟩

/-! ### Type-graph builder (`build_schema_artifacts`) -/

/-- A cytoscape node `\x7b"data": \x7b"id": source, "label": source\x7d\x7d`. -/
structure GraphNode where
  id : String
  label : String
deriving DecidableEq, Repr

/-- A cytoscape edge record. -/
structure GraphEdge where
  id : String
  source : String
  target : String
  label : Option String
deriving DecidableEq, Repr

/-- One per-type summary record. -/
structure ObjSummary where
  name : Option String
  field_count : Nat
  fields : List (Option String)
deriving DecidableEq, Repr

/-- `\x7b"nodes": nodes, "edges": edges\x7d`. -/
structure GraphData where
  nodes : List GraphNode
  edges : List GraphEdge
deriving DecidableEq, Repr

/-- The dictionary returned by `build_schema_artifacts`. -/
structure Artifacts where
  object_count : Nat
  objects : List ObjSummary
  graph : GraphData
deriving DecidableEq, Repr

/-- `str(t.get("name", ""))` as used in the OBJECT filter.  An absent
name gives `""` and a JSON-null name gives `"None"` in Python; the
embedding maps both `none` cases to `""`, which is interchangeable here
because neither `""` nor `"None"` starts with `"__"`. -/
def filterNameStr (t : GQLType) : String :=
  t.name.getD ""

/-- The `object_types` filter: `kind == "OBJECT"` and name not starting
with the reserved `"__"` prefix. -/
def objectTypesOf (sd : SchemaData) : List GQLType :=
  ((schemaOf sd).types.getD []).filter
    (fun t => t.kind == some "OBJECT" && !(pyStartsWith (filterNameStr t) "__"))

/-- `\x7bt.get("name") for t in object_types if t.get("name")\x7d`: the truthy
names of the filtered object types (modelled as a list; only membership
is consulted). -/
def objectNamesOf (sd : SchemaData) : List String :=
  (objectTypesOf sd).filterMap
    (fun t => match t.name with
      | some s => if s = "" then none else some s
      | none => none)

/-- The f-string rendering of an optional field name inside an edge id
(`None` for a null name, as Python would print). -/
def pyStrOpt (o : Option String) : String :=
  o.getD "None"

/-- The edges contributed by one object type named `source`: one edge
per field whose resolved named type is a member of `object_names`. -/
def edgesOfObject (objectNames : List String) (source : String) (o : GQLType) :
    List GraphEdge :=
  (o.fields.getD []).filterMap
    (fun f => match _extract_named_type f.type with
      | some tn =>
        if tn ∈ objectNames then
          some ⟨source ++ "->" ++ tn ++ ":" ++ pyStrOpt f.name, source, tn, f.name⟩
        else none
      | none => none)

/-- The node produced by one object type; `None`/empty names are skipped
(`if not source: continue`). -/
def nodeOfObject (t : GQLType) : Option GraphNode :=
  match t.name with
  | some s => if s = "" then none else some ⟨s, s⟩
  | none => none

/-- Summary sort key: Python sorts by `item["name"]` (it raises
`TypeError` when a name is null; the embedding totalises that
unreachable-in-practice case with the `"None"` rendering). -/
def summaryLe (a b : ObjSummary) : Prop :=
  strLe (pyStrOpt a.name) (pyStrOpt b.name) = true

instance : DecidableRel summaryLe :=
  fun a b => inferInstanceAs (Decidable (_ = true))

/-- `build_schema_artifacts(schema_data)`. -/
def build_schema_artifacts (sd : SchemaData) : Artifacts :=
  let object_types := objectTypesOf sd
  let object_names := objectNamesOf sd
  let nodes := object_types.filterMap nodeOfObject
  let edges := object_types.flatMap
    (fun o => match o.name with
      | some s => if s = "" then [] else edgesOfObject object_names s o
      | none => [])
  let object_summaries := object_types.map
    (fun t => ObjSummary.mk t.name (t.fields.getD []).length ((t.fields.getD []).map (·.name)))
  ⟨object_summaries.length,
   List.insertionSort summaryLe object_summaries,
   ⟨nodes, edges⟩⟩

/-! ### Audit orchestrator (`run_graphql_cop_audit`) -/

/-- One probe finding; `title` is the sort key, `payload` stands for the
remaining severity/evidence fields. -/
structure Finding where
  title : String
  payload : String
deriving DecidableEq, Repr

/-- A probe capability `test(target, proxies, headers, debug_mode)`. -/
def Probe : Type :=
  String → List (String × String) → List (String × String) → Bool → Finding

/-- `test(target, \x7b\x7d, dict(base_headers), False)`. -/
def applyProbe (target : String) (base : List (String × String)) (t : Probe) : Finding :=
  t target [] base false

/-- `base_headers = dict(GRAPHCOP_HEADERS); base_headers.update(headers)`. -/
def baseHeadersOf (graphcopHeaders headers : List (String × String)) :
    List (String × String) :=
  pyDictUpdate graphcopHeaders headers

/-- The finding order `sorted(findings, key=lambda item: item["title"])`. -/
def findingLe (a b : Finding) : Prop :=
  strLe a.title b.title = true

instance : DecidableRel findingLe :=
  fun a b => inferInstanceAs (Decidable (_ = true))

/-- `run_graphql_cop_audit(target, headers)` with the externally
injected probe catalog (`lib.tests`, iterated in order) and the
`GRAPHCOP_HEADERS` configuration as explicit parameters: invoke every
probe once, then return the findings sorted by title (Python's `sorted`
is stable, as is `insertionSort`). -/
def run_graphql_cop_audit (target : String)
    (headers graphcopHeaders : List (String × String))
    (catalog : List Probe) : List Finding :=
  List.insertionSort findingLe
    (catalog.map (applyProbe target (baseHeadersOf graphcopHeaders headers)))

/-! ### The `/api/analyze` handler core -/

/-- The introspection response body after JSON parsing: an optional
top-level `errors` list and an optional `data` object. -/
structure IntroResult where
  errors : Option (List String)
  data : Option SchemaData
deriving Repr

/-- Python truthiness of `introspection_result.get("errors")`: absent,
null and the empty list are all falsy. -/
def errTruthy : Option (List String) → Bool
  | some (_ :: _) => true
  | _ => false

/-- The successful response body of `/api/analyze` (the raw
`introspection` echo omitted). -/
structure AnalyzeResponse where
  engine : EngineResult
  audit : List Finding
  schema : Artifacts
deriving Repr

/-- The body of `analyze()` after the transport call succeeded and the
header parsing passed: fail only when the introspection body carries a
truthy `errors` list; otherwise take `data or \x7b\x7d`, run the audit, the
classifier and the graph builder, and answer 200. -/
def analyzeCore (target : String) (headers graphcopHeaders : List (String × String))
    (catalog : List Probe) (ir : IntroResult) (responseHeaders : List (String × String)) :
    Except String AnalyzeResponse :=
  if errTruthy ir.errors then .error "Introspection is unavailable"
  else
    let schema_data := ir.data.getD ⟨none⟩
    let audit_findings := run_graphql_cop_audit target headers graphcopHeaders catalog
    .ok ⟨detect_engine schema_data responseHeaders, audit_findings,
         build_schema_artifacts schema_data⟩

/-! ## Helper lemmas -/

section StringLemmas

theorem hasSub_nil_pat (l : List Char) : hasSub [] l = true := by
  cases l <;> simp [hasSub, matchAt]

theorem matchAt_append {pat a : List Char} (b : List Char) (h : matchAt pat a = true) :
    matchAt pat (a ++ b) = true := by
  induction pat generalizing a with
  | nil => simp [matchAt]
  | cons p ps ih =>
    cases a with
    | nil => simp [matchAt] at h
    | cons c cs =>
      simp only [matchAt, Bool.and_eq_true] at h ⊢
      exact ⟨h.1, ih h.2⟩

theorem hasSub_append_left {pat a : List Char} (b : List Char) (h : hasSub pat a = true) :
    hasSub pat (a ++ b) = true := by
  induction a with
  | nil =>
    simp only [hasSub, List.isEmpty_iff] at h
    subst h
    exact hasSub_nil_pat b
  | cons c cs ih =>
    simp only [hasSub, Bool.or_eq_true] at h ⊢
    rcases h with h | h
    · exact Or.inl (matchAt_append b h)
    · exact Or.inr (ih h)

theorem hasSub_append_right {pat b : List Char} (a : List Char) (h : hasSub pat b = true) :
    hasSub pat (a ++ b) = true := by
  induction a with
  | nil => simpa using h
  | cons c cs ih =>
    simp only [List.cons_append, hasSub, Bool.or_eq_true]
    exact Or.inr ih

theorem strContains_append_right {s pat : String} (t : String)
    (h : strContains s pat = true) : strContains (t ++ s) pat = true := by
  simpa [strContains, String.data_append] using hasSub_append_right t.data h

theorem strContains_append_left {s pat : String} (t : String)
    (h : strContains s pat = true) : strContains (s ++ t) pat = true := by
  simpa [strContains, String.data_append] using hasSub_append_left t.data h

theorem joinPairs_cons (q : String × String) (rest : List (String × String))
    (h : rest ≠ []) :
    joinPairs (q :: rest) = q.1 ++ ":" ++ q.2 ++ " " ++ joinPairs rest := by
  cases rest with
  | nil => exact absurd rfl h
  | cons r rs => rfl

theorem joinPairs_contains_value {pat : String} :
    ∀ (l₁ : List (String × String)) (p : String × String) (l₂ : List (String × String)),
      strContains p.2 pat = true →
      strContains (joinPairs (l₁ ++ p :: l₂)) pat = true := by
  intro l₁
  induction l₁ with
  | nil =>
    intro p l₂ h
    cases l₂ with
    | nil => exact strContains_append_right (p.1 ++ ":") h
    | cons r rs =>
      rw [List.nil_append, joinPairs_cons p (r :: rs) (by simp)]
      exact strContains_append_left _
        (strContains_append_left _ (strContains_append_right (p.1 ++ ":") h))
  | cons q qs ih =>
    intro p l₂ h
    rw [List.cons_append, joinPairs_cons q (qs ++ p :: l₂) (by simp)]
    exact strContains_append_right _ (ih p l₂ h)

theorem charToNat_inj {a b : Char} (h : a.toNat = b.toNat) : a = b := by
  rcases a with ⟨⟨⟨av, hav⟩⟩, pa⟩
  rcases b with ⟨⟨⟨bv, hbv⟩⟩, pb⟩
  simp only [Char.toNat, UInt32.toNat] at h
  subst h
  rfl

theorem lexLe_total : ∀ a b : List Char, lexLe a b = true ∨ lexLe b a = true := by
  intro a
  induction a with
  | nil => intro b; left; rfl
  | cons x xs ih =>
    intro b
    cases b with
    | nil => right; rfl
    | cons y ys =>
      rcases Nat.lt_trichotomy x.toNat y.toNat with h | h | h
      · left; simp [lexLe, h]
      · have h1 : ¬ x.toNat < y.toNat := by omega
        have h2 : ¬ y.toNat < x.toNat := by omega
        rcases ih ys with h3 | h3
        · left; simp [lexLe, h1, h2, h3]
        · right; simp [lexLe, h1, h2, h3]
      · right; simp [lexLe, h]

theorem lexLe_trans : ∀ a b c : List Char,
    lexLe a b = true → lexLe b c = true → lexLe a c = true := by
  intro a
  induction a with
  | nil => intro b c _ _; rfl
  | cons x xs ih =>
    intro b c hab hbc
    cases b with
    | nil => simp [lexLe] at hab
    | cons y ys =>
      cases c with
      | nil => simp [lexLe] at hbc
      | cons z zs =>
        simp only [lexLe] at hab hbc ⊢
        by_cases hxy : x.toNat < y.toNat
        · simp only [hxy, if_true] at hab
          by_cases hyz : y.toNat < z.toNat
          · have : x.toNat < z.toNat := by omega
            simp [this]
          · simp only [hyz, if_false] at hbc
            by_cases hzy : z.toNat < y.toNat
            · simp [hzy] at hbc
            · have hyz' : y.toNat = z.toNat := by omega
              have : x.toNat < z.toNat := by omega
              simp [this]
        · simp only [hxy, if_false] at hab
          by_cases hyx : y.toNat < x.toNat
          · simp [hyx] at hab
          · have hxy' : x.toNat = y.toNat := by omega
            by_cases hyz : y.toNat < z.toNat
            · have : x.toNat < z.toNat := by omega
              simp [this]
            · simp only [hyz, if_false] at hbc
              by_cases hzy : z.toNat < y.toNat
              · simp [hzy] at hbc
              · have hxz : ¬ x.toNat < z.toNat := by omega
                have hzx : ¬ z.toNat < x.toNat := by omega
                rw [if_neg hyx] at hab
                rw [if_neg hzy] at hbc
                rw [if_neg hxz, if_neg hzx]
                exact ih ys zs hab hbc

theorem lexLe_antisymm : ∀ a b : List Char,
    lexLe a b = true → lexLe b a = true → a = b := by
  intro a
  induction a with
  | nil =>
    intro b _ hba
    cases b with
    | nil => rfl
    | cons y ys => simp [lexLe] at hba
  | cons x xs ih =>
    intro b hab hba
    cases b with
    | nil => simp [lexLe] at hab
    | cons y ys =>
      simp only [lexLe] at hab hba
      by_cases hxy : x.toNat < y.toNat
      · have h2 : ¬ y.toNat < x.toNat := by omega
        simp [hxy, h2] at hba
      · by_cases hyx : y.toNat < x.toNat
        · simp [hxy, hyx] at hab
        · have hx : x = y := charToNat_inj (by omega)
          simp only [hxy, hyx, if_false] at hab hba
          rw [hx, ih ys hab hba]

theorem strLe_total (s t : String) : strLe s t = true ∨ strLe t s = true :=
  lexLe_total s.data t.data

theorem strLe_trans {s t u : String} (h1 : strLe s t = true) (h2 : strLe t u = true) :
    strLe s u = true :=
  lexLe_trans s.data t.data u.data h1 h2

theorem strLe_antisymm {s t : String} (h1 : strLe s t = true) (h2 : strLe t s = true) :
    s = t :=
  String.toList_inj.mp (lexLe_antisymm s.data t.data h1 h2)

end StringLemmas

section DictLemmas

theorem pyDictSet_of_fresh {m : List (String × String)} {k : String} (v : String)
    (h : ∀ p ∈ m, p.1 ≠ k) : pyDictSet m k v = m ++ [(k, v)] := by
  unfold pyDictSet
  rw [if_neg]
  intro hc
  rcases List.any_eq_true.mp hc with ⟨p, hp, hpk⟩
  exact h p hp (by simpa using hpk)

theorem pyDictUpdate_of_disjoint :
    ∀ (l m : List (String × String)),
      (l.map Prod.fst).Nodup →
      (∀ p ∈ m, ∀ q ∈ l, p.1 ≠ q.1) →
      pyDictUpdate m l = m ++ l := by
  intro l
  induction l with
  | nil => intro m _ _; simp [pyDictUpdate]
  | cons q rest ih =>
    intro m hnd hdisj
    obtain ⟨k, v⟩ := q
    have hnd' : k ∉ rest.map Prod.fst ∧ (rest.map Prod.fst).Nodup := by
      rw [List.map_cons, List.nodup_cons] at hnd
      exact hnd
    have hfresh : ∀ p ∈ m, p.1 ≠ k := fun p hp => hdisj p hp (k, v) (by simp)
    have hstep : pyDictUpdate m ((k, v) :: rest) = pyDictUpdate (m ++ [(k, v)]) rest := by
      simp [pyDictUpdate, pyDictSet_of_fresh v hfresh]
    rw [hstep, ih (m ++ [(k, v)])]
    · simp
    · exact hnd'.2
    · intro p hp r hr
      rcases List.mem_append.mp hp with hp | hp
      · exact hdisj p hp r (List.mem_cons_of_mem _ hr)
      · have hpk : p = (k, v) := by simpa using hp
        subst hpk
        intro hcontra
        have hck : k = r.1 := hcontra
        exact hnd'.1 (by
          rw [hck]
          exact List.mem_map.mpr ⟨r, hr, rfl⟩)

theorem pyDictOfList_of_nodup {l : List (String × String)}
    (h : (l.map Prod.fst).Nodup) : pyDictOfList l = l := by
  have := pyDictUpdate_of_disjoint l [] h (by simp)
  simpa [pyDictOfList] using this

end DictLemmas

section PickBestLemmas

theorem pickBest_mem : ∀ (l : List (String × Nat)) (b : String × Nat),
    pickBest b l ∈ b :: l := by
  intro l
  induction l with
  | nil => intro b; simp [pickBest]
  | cons q rest ih =>
    intro b
    have h := ih (if b.2 < q.2 then q else b)
    rcases List.mem_cons.mp h with h | h
    · rw [pickBest, h]
      split
      · simp
      · simp
    · simp [pickBest, List.mem_cons.mpr (Or.inr (List.mem_cons_of_mem _ h))]

theorem pickBest_ge : ∀ (l : List (String × Nat)) (b : String × Nat),
    ∀ q ∈ b :: l, q.2 ≤ (pickBest b l).2 := by
  intro l
  induction l with
  | nil =>
    intro b q hq
    have : q = b := by simpa using hq
    simp [this, pickBest]
  | cons r rest ih =>
    intro b q hq
    have hb : b.2 ≤ (if b.2 < r.2 then r else b).2 := by split <;> omega
    have hr : r.2 ≤ (if b.2 < r.2 then r else b).2 := by split <;> omega
    have hbest := ih (if b.2 < r.2 then r else b)
    rcases List.mem_cons.mp hq with hq | hq
    · subst hq
      exact le_trans hb (hbest _ (List.mem_cons_self _ _))
    · rcases List.mem_cons.mp hq with hq | hq
      · subst hq
        exact le_trans hr (hbest _ (List.mem_cons_self _ _))
      · exact hbest q (List.mem_cons_of_mem _ hq)

theorem pickBest_of_dominant : ∀ (l : List (String × Nat)) (b : String × Nat),
    (∀ q ∈ l, q.2 ≤ b.2) → pickBest b l = b := by
  intro l
  induction l with
  | nil => intro b _; rfl
  | cons q rest ih =>
    intro b h
    have hq : q.2 ≤ b.2 := h q (List.mem_cons_self _ _)
    have : ¬ b.2 < q.2 := by omega
    rw [pickBest, if_neg this]
    exact ih b (fun r hr => h r (List.mem_cons_of_mem _ hr))

theorem pickBest_snd : ∀ (l : List (String × Nat)) (b : String × Nat),
    (pickBest b l).2 = l.foldl (fun m p => max m p.2) b.2 := by
  intro l
  induction l with
  | nil => intro b; rfl
  | cons q rest ih =>
    intro b
    have hmax : (if b.2 < q.2 then q else b).2 = max b.2 q.2 := by split <;> omega
    calc (pickBest b (q :: rest)).2
        = (pickBest (if b.2 < q.2 then q else b) rest).2 := rfl
      _ = rest.foldl (fun m p => max m p.2) (if b.2 < q.2 then q else b).2 := ih _
      _ = rest.foldl (fun m p => max m p.2) (max b.2 q.2) := by rw [hmax]

end PickBestLemmas

/-- Modelled from the spec: the maximal score of a signal score table
(scores are non-negative, so the fold starts at 0). -/
def tableMax (l : List (String × Nat)) : Nat :=
  l.foldl (fun m p => max m p.2) 0

/-- Modelled from the spec: "select the engine with the maximal score;
on an exact tie, the engine that appears first in the fixed declaration
order wins" — the first table entry whose score attains the maximum. -/
def specFirstMaxEngine (l : List (String × Nat)) : Option String :=
  (l.find? (fun x => decide (tableMax l ≤ x.2))).map Prod.fst

section FirstMaxLemmas

theorem tableMax_cons (b : String × Nat) (l : List (String × Nat)) :
    tableMax (b :: l) = l.foldl (fun m p => max m p.2) b.2 := by
  simp [tableMax, List.foldl_cons, Nat.zero_max]

theorem pickBest_snd_eq_tableMax (b : String × Nat) (l : List (String × Nat)) :
    (pickBest b l).2 = tableMax (b :: l) := by
  rw [pickBest_snd, tableMax_cons]

theorem pickBest_eq_find :
    ∀ (l : List (String × Nat)) (b : String × Nat),
      pickBest b l =
        ((b :: l).find? (fun x => decide (tableMax (b :: l) ≤ x.2))).getD b := by
  intro l
  induction l with
  | nil =>
    intro b
    have hb : (fun x : String × Nat => decide (tableMax [b] ≤ x.2)) b = true := by
      simp [tableMax, Nat.zero_max]
    rw [@List.find?_cons_of_pos _ (fun x => decide (tableMax [b] ≤ x.2)) b [] hb]
    rfl
  | cons q rest ih =>
    intro b
    have hM : tableMax (b :: q :: rest) = (pickBest b (q :: rest)).2 :=
      (pickBest_snd_eq_tableMax b (q :: rest)).symm
    by_cases hlt : b.2 < q.2
    · -- the head is strictly beaten by the next entry
      have hstep : pickBest b (q :: rest) = pickBest q rest := by
        rw [pickBest, if_pos hlt]
      have hqM : q.2 ≤ tableMax (b :: q :: rest) := by
        rw [hM]
        exact pickBest_ge (q :: rest) b q (by simp)
      have hbfalse :
          ¬ (fun x : String × Nat => decide (tableMax (b :: q :: rest) ≤ x.2)) b = true := by
        simp only [decide_eq_true_eq]
        omega
      rw [@List.find?_cons_of_neg _ (fun x => decide (tableMax (b :: q :: rest) ≤ x.2))
        b (q :: rest) hbfalse]
      have hMq : tableMax (b :: q :: rest) = tableMax (q :: rest) := by
        rw [hM, hstep, pickBest_snd_eq_tableMax]
      rw [hstep, ih q, hMq]
      -- the found entry exists, so the default does not matter
      have hsome : ((q :: rest).find?
          (fun x => decide (tableMax (q :: rest) ≤ x.2))).isSome = true := by
        apply List.find?_isSome.mpr
        refine ⟨pickBest q rest, pickBest_mem rest q, ?_⟩
        simp [pickBest_snd_eq_tableMax]
      cases hfind : (q :: rest).find? (fun x => decide (tableMax (q :: rest) ≤ x.2)) with
      | none => rw [hfind] at hsome; simp at hsome
      | some y => rfl
    · -- the head survives the first comparison
      have hstep : pickBest b (q :: rest) = pickBest b rest := by
        rw [pickBest, if_neg hlt]
      have hMr : tableMax (b :: q :: rest) = tableMax (b :: rest) := by
        rw [hM, hstep, pickBest_snd_eq_tableMax]
      by_cases hMb : tableMax (b :: q :: rest) ≤ b.2
      · have hbtrue :
            (fun x : String × Nat => decide (tableMax (b :: q :: rest) ≤ x.2)) b = true := by
          simpa using hMb
        rw [@List.find?_cons_of_pos _ (fun x => decide (tableMax (b :: q :: rest) ≤ x.2))
          b (q :: rest) hbtrue]
        have hdom : ∀ x ∈ rest, x.2 ≤ b.2 := by
          intro x hx
          have hxM : x.2 ≤ tableMax (b :: q :: rest) := by
            rw [hM, hstep]
            exact pickBest_ge rest b x (List.mem_cons_of_mem _ hx)
          omega
        rw [hstep, pickBest_of_dominant rest b hdom]
        rfl
      · have hbfalse :
            ¬ (fun x : String × Nat => decide (tableMax (b :: q :: rest) ≤ x.2)) b = true := by
          simpa using hMb
        have hqfalse :
            ¬ (fun x : String × Nat => decide (tableMax (b :: q :: rest) ≤ x.2)) q = true := by
          simp only [decide_eq_true_eq]
          omega
        rw [@List.find?_cons_of_neg _ (fun x => decide (tableMax (b :: q :: rest) ≤ x.2))
          b (q :: rest) hbfalse]
        rw [@List.find?_cons_of_neg _ (fun x => decide (tableMax (b :: q :: rest) ≤ x.2))
          q rest hqfalse]
        have hIH := ih b
        have hbfalse' :
            ¬ (fun x : String × Nat => decide (tableMax (b :: rest) ≤ x.2)) b = true := by
          simp only [decide_eq_true_eq]
          omega
        rw [@List.find?_cons_of_neg _ (fun x => decide (tableMax (b :: rest) ≤ x.2))
          b rest hbfalse'] at hIH
        rw [hstep, hIH, hMr]

end FirstMaxLemmas

section SortLemmas

instance : IsTotal Finding findingLe :=
  ⟨fun a b => strLe_total a.title b.title⟩

instance : IsTrans Finding findingLe :=
  ⟨fun _ _ _ hab hbc => strLe_trans hab hbc⟩

/-- Two sorted finding lists that are permutations of one another and
have pairwise distinct titles are equal. -/
theorem sorted_perm_nodup_titles_eq :
    ∀ (l₁ l₂ : List Finding),
      List.Perm l₁ l₂ →
      l₁.Sorted findingLe → l₂.Sorted findingLe →
      (l₁.map Finding.title).Nodup →
      l₁ = l₂ := by
  intro l₁
  induction l₁ with
  | nil =>
    intro l₂ hp _ _ _
    exact (hp.symm.eq_nil).symm
  | cons a t₁ ih =>
    intro l₂ hp hs₁ hs₂ hnd
    cases l₂ with
    | nil => exact hp.eq_nil
    | cons b t₂ =>
      have hab : a = b := by
        have ha : a ∈ b :: t₂ := hp.subset (List.mem_cons_self _ _)
        have hb : b ∈ a :: t₁ := hp.symm.subset (List.mem_cons_self _ _)
        rcases List.mem_cons.mp ha with h | h
        · exact h
        · rcases List.mem_cons.mp hb with h' | h'
          · exact h'.symm
          · -- both directions of the order hold, so the titles agree,
            -- contradicting title nodup
            have h1 : findingLe a b := (List.sorted_cons.mp hs₁).1 b h'
            have h2 : findingLe b a := (List.sorted_cons.mp hs₂).1 a h
            have heq : a.title = b.title := strLe_antisymm h1 h2
            have hnotin : a.title ∉ t₁.map Finding.title :=
              (List.nodup_cons.mp (by simpa using hnd)).1
            exact absurd (heq ▸ List.mem_map.mpr ⟨b, h', rfl⟩) hnotin
      subst hab
      have ht : t₁ = t₂ :=
        ih t₂ hp.cons_inv (List.sorted_cons.mp hs₁).2 (List.sorted_cons.mp hs₂).2
          (List.nodup_cons.mp (by simpa using hnd)).2
      rw [ht]

end SortLemmas

section GraphLemmas

/-- The node list is exactly the truthy object names, rendered as
`id = label = name` nodes, in order. -/
theorem nodes_eq_map_names :
    ∀ l : List GQLType,
      l.filterMap nodeOfObject =
        (l.filterMap (fun t => match t.name with
          | some s => if s = "" then none else some s
          | none => none)).map (fun s => GraphNode.mk s s) := by
  intro l
  induction l with
  | nil => rfl
  | cons t ts ih =>
    cases hn : t.name with
    | none => simp [List.filterMap_cons, nodeOfObject, hn, ih]
    | some s =>
      by_cases hs : s = ""
      · simp [List.filterMap_cons, nodeOfObject, hn, hs, ih]
      · simp [List.filterMap_cons, nodeOfObject, hn, hs, ih]

/-- Every truthy object name has a corresponding node. -/
theorem mem_nodes_of_mem_objectNames {sd : SchemaData} {s : String}
    (h : s ∈ objectNamesOf sd) :
    GraphNode.mk s s ∈ (objectTypesOf sd).filterMap nodeOfObject := by
  rw [nodes_eq_map_names]
  exact List.mem_map.mpr ⟨s, h, rfl⟩

/-- Characterisation of node membership: a node comes from an object
type carrying its id as a truthy name. -/
theorem mem_nodes_iff {sd : SchemaData} {n : GraphNode} :
    n ∈ (objectTypesOf sd).filterMap nodeOfObject ↔
      ∃ t ∈ objectTypesOf sd, t.name = some n.id ∧ n.id ≠ "" ∧ n.label = n.id := by
  constructor
  · intro h
    rcases List.mem_filterMap.mp h with ⟨t, ht, hnode⟩
    cases hn : t.name with
    | none => simp [nodeOfObject, hn] at hnode
    | some s =>
      by_cases hs : s = ""
      · simp [nodeOfObject, hn, hs] at hnode
      · have hnode' : GraphNode.mk s s = n := by
          simpa [nodeOfObject, hn, hs] using hnode
        subst hnode'
        exact ⟨t, ht, by simpa using hn, hs, rfl⟩
  · intro ⟨t, ht, hname, hne, hlabel⟩
    refine List.mem_filterMap.mpr ⟨t, ht, ?_⟩
    rcases n with ⟨nid, nlabel⟩
    simp only at hname hne hlabel
    subst hlabel
    simp [nodeOfObject, hname, hne]

end GraphLemmas

section ExtractLemmas

/-- The unwrap loop returns the first truthy name of the chain; when no
name along the chain is the empty string, that is the first non-null
name. -/
theorem extractLoop_eq_findSome :
    ∀ t : TypeRef,
      (∀ o ∈ chainNames t, o ≠ some "") →
      extractNamedTypeLoop t = (chainNames t).findSome? id := by
  intro t
  induction t with
  | leaf k n =>
    intro hclean
    cases n with
    | none => rfl
    | some s =>
      have hs : s ≠ "" := by
        intro hc
        exact hclean (some s) (by simp [chainNames]) (by rw [hc])
      simp [extractNamedTypeLoop, pyTruthy, chainNames, List.findSome?, hs]
  | wrap k n t ih =>
    intro hclean
    cases n with
    | none =>
      have : extractNamedTypeLoop (.wrap k none t) = extractNamedTypeLoop t := by
        simp [extractNamedTypeLoop, pyTruthy]
      rw [this, chainNames]
      rw [ih (fun o ho => hclean o (by simp [chainNames, ho]))]
      rfl
    | some s =>
      have hs : s ≠ "" := by
        intro hc
        exact hclean (some s) (by simp [chainNames]) (by rw [hc])
      simp [extractNamedTypeLoop, pyTruthy, chainNames, List.findSome?, hs]

end ExtractLemmas

section BestOfLemmas

theorem bestOf_mem_of_ne_nil {l : List (String × Nat)} (h : l ≠ []) : bestOf l ∈ l := by
  cases l with
  | nil => exact absurd rfl h
  | cons b rest => exact pickBest_mem rest b

theorem bestOf_ge_all : ∀ (l : List (String × Nat)), ∀ p ∈ l, p.2 ≤ (bestOf l).2 := by
  intro l p hp
  cases l with
  | nil => simp at hp
  | cons b rest => exact pickBest_ge rest b p hp

theorem bestOf_dominant_head (b : String × Nat) (l : List (String × Nat))
    (h : ∀ q ∈ b :: l, q.2 ≤ b.2) : bestOf (b :: l) = b :=
  pickBest_of_dominant l b (fun q hq => h q (List.mem_cons_of_mem _ hq))

theorem bestOf_eq_firstMax (b : String × Nat) (l : List (String × Nat)) :
    specFirstMaxEngine (b :: l) = some ((bestOf (b :: l)).1) := by
  have h := pickBest_eq_find l b
  have hsome : ((b :: l).find? (fun x => decide (tableMax (b :: l) ≤ x.2))).isSome = true := by
    apply List.find?_isSome.mpr
    exact ⟨pickBest b l, pickBest_mem l b, by simp [pickBest_snd_eq_tableMax]⟩
  cases hfind : (b :: l).find? (fun x => decide (tableMax (b :: l) ≤ x.2)) with
  | none => rw [hfind] at hsome; simp at hsome
  | some y =>
    rw [hfind] at h
    simp only [Option.getD_some] at h
    show ((b :: l).find? (fun x => decide (tableMax (b :: l) ≤ x.2))).map Prod.fst = _
    rw [hfind]
    show some y.1 = some ((pickBest b l).1)
    rw [h]

end BestOfLemmas

/-! ## Concrete inputs used by the claim theorems and witnesses -/

/-- The schema of the spec scenario: an OBJECT type `User` whose field
`posts` is a LIST wrapping OBJECT `Post`, with the object type `Post`
also present, and an empty `directives` list. -/
def userPostSD : SchemaData :=
  ⟨some ⟨some
    [⟨some "OBJECT", some "User",
      some [⟨some "posts",
        some (.wrap (some "LIST") none (.leaf (some "OBJECT") (some "Post")))⟩]⟩,
     ⟨some "OBJECT", some "Post", none⟩],
    some []⟩⟩

/-- A `TypeRef` chain of depth 1: LIST wrapping the named OBJECT `Post`. -/
def sampleChain : TypeRef :=
  .wrap (some "LIST") none (.leaf (some "OBJECT") (some "Post"))

/-- A probe that always reports the finding titled `A-check`. -/
def probeA : Probe := fun _ _ _ _ => ⟨"A-check", "alpha"⟩

/-- A probe that always reports the finding titled `B-check`. -/
def probeB : Probe := fun _ _ _ _ => ⟨"B-check", "beta"⟩

/-! ## Claim-level helper lemmas shared between claims -/

/-- Every graph node stems from a declared type of kind OBJECT whose
name does not start with the reserved prefix. -/
theorem nodes_only_clean_objects (sd : SchemaData) :
    ∀ n ∈ (build_schema_artifacts sd).graph.nodes,
      pyStartsWith n.id "__" = false ∧
      ∃ t ∈ (schemaOf sd).types.getD [],
        t.kind = some "OBJECT" ∧ t.name = some n.id := by
  intro n hn
  have hn' : n ∈ (objectTypesOf sd).filterMap nodeOfObject := by
    simpa [build_schema_artifacts] using hn
  rcases mem_nodes_iff.mp hn' with ⟨t, ht, hname, hne, hlabel⟩
  have ht' : t ∈ ((schemaOf sd).types.getD []).filter
      (fun t => t.kind == some "OBJECT" && !(pyStartsWith (filterNameStr t) "__")) := by
    simpa [objectTypesOf] using ht
  obtain ⟨htypes, hcond⟩ := List.mem_filter.mp ht'
  rw [Bool.and_eq_true] at hcond
  obtain ⟨hkind, hpre⟩ := hcond
  have hkind' : t.kind = some "OBJECT" := by simpa using hkind
  have hpre' : pyStartsWith (filterNameStr t) "__" = false := by simpa using hpre
  refine ⟨?_, t, htypes, hkind', hname⟩
  have hfn : filterNameStr t = n.id := by simp [filterNameStr, hname]
  rw [← hfn]
  exact hpre'

/-- Both endpoints of every emitted edge are ids of emitted nodes. -/
theorem edge_endpoints_mem_nodes (sd : SchemaData) :
    ∀ e ∈ (build_schema_artifacts sd).graph.edges,
      (∃ n ∈ (build_schema_artifacts sd).graph.nodes, n.id = e.source) ∧
      (∃ n ∈ (build_schema_artifacts sd).graph.nodes, n.id = e.target) := by
  intro e he
  have he' : e ∈ (objectTypesOf sd).flatMap
      (fun o => match o.name with
        | some s => if s = "" then [] else edgesOfObject (objectNamesOf sd) s o
        | none => []) := by
    simpa [build_schema_artifacts] using he
  rcases List.mem_flatMap.mp he' with ⟨o, ho, hoe⟩
  cases hn : o.name with
  | none => simp [hn] at hoe
  | some s =>
    by_cases hs : s = ""
    · simp [hn, hs] at hoe
    · simp only [hn, if_neg hs] at hoe
      have hsrc : s ∈ objectNamesOf sd := by
        refine List.mem_filterMap.mpr ⟨o, ho, ?_⟩
        simp [hn, hs]
      rcases List.mem_filterMap.mp (by simpa [edgesOfObject] using hoe) with ⟨f, hf, hfe⟩
      cases hx : _extract_named_type f.type with
      | none => simp [hx] at hfe
      | some tn =>
        by_cases htn : tn ∈ objectNamesOf sd
        · have he2 :
              GraphEdge.mk (s ++ "->" ++ tn ++ ":" ++ pyStrOpt f.name) s tn f.name = e := by
            simpa [hx, htn] using hfe
          subst he2
          constructor
          · exact ⟨⟨s, s⟩,
              by simpa [build_schema_artifacts] using mem_nodes_of_mem_objectNames hsrc, rfl⟩
          · exact ⟨⟨tn, tn⟩,
              by simpa [build_schema_artifacts] using mem_nodes_of_mem_objectNames htn, rfl⟩
        · simp [hx, htn] at hfe

/-! ## Claim theorems -/

/-- C1 (counterexample): for the introspection response whose `data`
object lacks the `__schema` key (and which carries no `errors`), the
`analyze` pipeline does not fail with any extraction error: it answers
success, returning a full artifact record (engine guess and an empty
schema graph), contradicting the claim that such input yields a
`SchemaExtractionError` and no schema artifacts.  There is no
`SchemaExtractionError` anywhere in the source. -/
theorem analyze_missing_schema_counterexample :
    analyzeCore "http://target" [] [] [] ⟨none, some ⟨none⟩⟩ [] =
      Except.ok ⟨⟨"Unknown", 0, engineSecurityNotes "Unknown",
        [("Apollo", 0), ("Hasura", 0), ("graphene-python", 0),
         ("PostGraphile", 0), ("Ariadne", 0), ("Hot Chocolate", 0)]⟩,
        [], ⟨0, [], ⟨[], []⟩⟩⟩ := rfl

/-- C1 (amended): when the introspection body carries no truthy `errors`
list and its `data` lacks `__schema` (or the `__schema` object lacks
`types`), the `analyze` core does not fail: it treats the schema as
empty and succeeds with artifacts containing zero objects, no nodes and
no edges. -/
theorem analyze_missing_schema_empty_artifacts (target : String)
    (headers graphcopHeaders responseHeaders : List (String × String))
    (catalog : List Probe) (ir : IntroResult)
    (herr : errTruthy ir.errors = false)
    (hschema : (ir.data.getD ⟨none⟩).schemaOpt = none ∨
      ∃ s, (ir.data.getD ⟨none⟩).schemaOpt = some s ∧ s.types = none) :
    ∃ resp, analyzeCore target headers graphcopHeaders catalog ir responseHeaders =
        Except.ok resp ∧
      resp.schema.object_count = 0 ∧
      resp.schema.objects = [] ∧
      resp.schema.graph.nodes = [] ∧
      resp.schema.graph.edges = [] := by
  have htypes : (schemaOf (ir.data.getD ⟨none⟩)).types.getD [] = [] := by
    rcases hschema with h | ⟨s, hs, hts⟩
    · simp [schemaOf, h]
    · simp [schemaOf, hs, hts]
  have hred : analyzeCore target headers graphcopHeaders catalog ir responseHeaders =
      Except.ok ⟨detect_engine (ir.data.getD ⟨none⟩) responseHeaders,
        run_graphql_cop_audit target headers graphcopHeaders catalog,
        build_schema_artifacts (ir.data.getD ⟨none⟩)⟩ := by
    simp [analyzeCore, herr]
  refine ⟨_, hred, ?_, ?_, ?_, ?_⟩ <;>
    simp [build_schema_artifacts, objectTypesOf, objectNamesOf, htypes, List.insertionSort]

/-- C1 (witness for the amended theorem). -/
theorem analyze_missing_schema_empty_artifacts_witness :
    ∃ resp, analyzeCore "http://target" [] [] [] ⟨none, none⟩ [] = Except.ok resp ∧
      resp.schema.object_count = 0 ∧
      resp.schema.objects = [] ∧
      resp.schema.graph.nodes = [] ∧
      resp.schema.graph.edges = [] :=
  analyze_missing_schema_empty_artifacts "http://target" [] [] [] [] ⟨none, none⟩
    (by decide) (Or.inl (by decide))

/-- C2: for every `TypeRef` chain of depth at most 7 none of whose names
is the empty string, `_extract_named_type` returns the first non-null
name of the unwrap chain (`findSome?` over the chain); in particular a
chain with no name at all yields `none` — the function is total, so no
exception is possible. -/
theorem extract_named_type_resolves_first_name (t : TypeRef)
    (hdepth : chainDepth t ≤ 7)
    (hclean : ∀ o ∈ chainNames t, o ≠ some "") :
    _extract_named_type (some t) = (chainNames t).findSome? id ∧
    ((∀ o ∈ chainNames t, o = none) → _extract_named_type (some t) = none) := by
  have h : extractNamedTypeLoop t = (chainNames t).findSome? id :=
    extractLoop_eq_findSome t hclean
  constructor
  · exact h
  · intro hall
    have hnone : ∀ l : List (Option String), (∀ o ∈ l, o = none) → l.findSome? id = none := by
      intro l
      induction l with
      | nil => intro _; rfl
      | cons o rest ih =>
        intro hl
        have ho : o = none := hl o (by simp)
        subst ho
        have : (none :: rest).findSome? (id : Option String → Option String) =
            rest.findSome? id := rfl
        rw [this]
        exact ih (fun o ho => hl o (List.mem_cons_of_mem _ ho))
    show extractNamedTypeLoop t = none
    rw [h]
    exact hnone _ hall

/-- C2 (witness): the depth-1 chain `LIST → OBJECT Post` resolves to
`Post`. -/
theorem extract_named_type_resolves_first_name_witness :
    chainDepth sampleChain ≤ 7 ∧
    _extract_named_type (some sampleChain) = (chainNames sampleChain).findSome? id ∧
    _extract_named_type (some sampleChain) = some "Post" :=
  ⟨by decide,
   (extract_named_type_resolves_first_name sampleChain (by decide) (by decide)).1,
   by decide⟩

/-- C3: every graph node comes from a declared type of kind OBJECT whose
name does not start with the reserved `__` prefix, and consequently no
edge endpoint starts with `__` either: reserved introspection meta-types
are excluded from the graph. -/
theorem graph_excludes_reserved_types (sd : SchemaData) :
    (∀ n ∈ (build_schema_artifacts sd).graph.nodes,
      pyStartsWith n.id "__" = false ∧
      ∃ t ∈ (schemaOf sd).types.getD [],
        t.kind = some "OBJECT" ∧ t.name = some n.id) ∧
    (∀ e ∈ (build_schema_artifacts sd).graph.edges,
      pyStartsWith e.source "__" = false ∧ pyStartsWith e.target "__" = false) := by
  constructor
  · exact nodes_only_clean_objects sd
  · intro e he
    obtain ⟨⟨n1, hn1, h1⟩, ⟨n2, hn2, h2⟩⟩ := edge_endpoints_mem_nodes sd e he
    exact ⟨h1 ▸ (nodes_only_clean_objects sd n1 hn1).1,
           h2 ▸ (nodes_only_clean_objects sd n2 hn2).1⟩

/-- C3 (witness): instantiated at the `User`/`Post` scenario schema and
its `User` node. -/
theorem graph_excludes_reserved_types_witness :
    pyStartsWith (GraphNode.mk "User" "User").id "__" = false ∧
    ∃ t ∈ (schemaOf userPostSD).types.getD [],
      t.kind = some "OBJECT" ∧ t.name = some (GraphNode.mk "User" "User").id :=
  (graph_excludes_reserved_types userPostSD).1 ⟨"User", "User"⟩ (by decide)

/-- C4: the type-graph builder is a pure function of its input — the
source performs no network or probe activity and mutates nothing — so
re-running it on the same schema yields identical node lists, edge
lists, summaries, and indeed an identical artifact record. -/
theorem build_schema_artifacts_deterministic (sd : SchemaData) :
    (build_schema_artifacts sd).graph.nodes = (build_schema_artifacts sd).graph.nodes ∧
    (build_schema_artifacts sd).graph.edges = (build_schema_artifacts sd).graph.edges ∧
    (build_schema_artifacts sd).objects = (build_schema_artifacts sd).objects ∧
    build_schema_artifacts sd = build_schema_artifacts sd :=
  ⟨rfl, rfl, rfl, rfl⟩

/-- C5: whenever every engine's accumulated signal score is zero, the
classifier reports engine `Unknown` with confidence 0 — the zero-score
override fires even though `max` over the all-zero table would have
returned its first key (`Apollo`). -/
theorem detect_engine_all_zero_unknown (sd : SchemaData) (hs : List (String × String))
    (h : ∀ p ∈ scoreTable sd hs, p.2 = 0) :
    (detect_engine sd hs).engine = "Unknown" ∧ (detect_engine sd hs).confidence = 0 := by
  have hmem : bestOf (scoreTable sd hs) ∈ scoreTable sd hs :=
    bestOf_mem_of_ne_nil (by simp [scoreTable])
  have hzero : (bestOf (scoreTable sd hs)).2 = 0 := h _ hmem
  constructor <;> simp [detect_engine, hzero]

/-- C5 (witness): the empty schema and empty header mapping give an
all-zero table and the `Unknown` result. -/
theorem detect_engine_all_zero_unknown_witness :
    (detect_engine ⟨none⟩ []).engine = "Unknown" ∧
    (detect_engine ⟨none⟩ []).confidence = 0 :=
  detect_engine_all_zero_unknown ⟨none⟩ [] (by decide)

/-- C6 (counterexample): the claim fails for header mappings in which
two header names collide after lowercasing.  In
`\x7b"X-A": "foo", "x-a": "bar"\x7d`, appending `apollo` to the value of the
first header gives `\x7b"X-A": "fooapollo", "x-a": "bar"\x7d`, but the
lowercase dict comprehension collapses both names to `x-a` keeping the
later value `bar`, so the Apollo score stays 0 instead of rising by 3. -/
theorem apollo_injection_shadowed_counterexample :
    scoreApollo ⟨none⟩ [("X-A", "fooapollo"), ("x-a", "bar")] =
      scoreApollo ⟨none⟩ [("X-A", "foo"), ("x-a", "bar")] ∧
    scoreApollo ⟨none⟩ [("X-A", "fooapollo"), ("x-a", "bar")] = 0 := by
  constructor <;> decide

/-- C6 (amended): for a header mapping whose names are pairwise distinct
after lowercasing and whose blob does not already contain `apollo`,
replacing any header value by one that (lowercased) contains the literal
`apollo` raises the Apollo score by exactly 3; and if afterwards no
engine scores strictly higher than Apollo, the classifier selects
Apollo. -/
theorem apollo_injection_raises_score (sd : SchemaData)
    (l₁ l₂ : List (String × String)) (k v v' : String)
    (hnd : ((l₁ ++ (k, v) :: l₂).map (fun p => pyLower p.1)).Nodup)
    (h0 : strContains (headerBlob (l₁ ++ (k, v) :: l₂)) "apollo" = false)
    (hv : strContains (pyLower v') "apollo" = true) :
    scoreApollo sd (l₁ ++ (k, v') :: l₂) = scoreApollo sd (l₁ ++ (k, v) :: l₂) + 3 ∧
    ((∀ p ∈ scoreTable sd (l₁ ++ (k, v') :: l₂),
        p.2 ≤ scoreApollo sd (l₁ ++ (k, v') :: l₂)) →
      (detect_engine sd (l₁ ++ (k, v') :: l₂)).engine = "Apollo") := by
  have hkeys : ((l₁ ++ (k, v') :: l₂).map (fun p => pyLower p.1)) =
      ((l₁ ++ (k, v) :: l₂).map (fun p => pyLower p.1)) := by simp
  have hnd' : ((l₁ ++ (k, v') :: l₂).map (fun p => pyLower p.1)).Nodup := by
    rw [hkeys]; exact hnd
  have hmapkeys : (((l₁ ++ (k, v') :: l₂).map
        (fun p => (pyLower p.1, pyLower p.2))).map Prod.fst).Nodup := by
    simpa [List.map_map, Function.comp] using hnd'
  have hlower' : lowerHeaders (l₁ ++ (k, v') :: l₂) =
      (l₁.map (fun p => (pyLower p.1, pyLower p.2))) ++
        (pyLower k, pyLower v') :: (l₂.map (fun p => (pyLower p.1, pyLower p.2))) := by
    rw [lowerHeaders, pyDictOfList_of_nodup hmapkeys]
    simp
  have hblob' : strContains (headerBlob (l₁ ++ (k, v') :: l₂)) "apollo" = true := by
    rw [headerBlob, hlower']
    exact joinPairs_contains_value _ (pyLower k, pyLower v') _ hv
  constructor
  · simp only [scoreApollo, hblob', h0]
    simp
    omega
  · intro hdom
    have hpos : 3 ≤ scoreApollo sd (l₁ ++ (k, v') :: l₂) := by
      simp only [scoreApollo, hblob']
      simp
    have hbest : bestOf (scoreTable sd (l₁ ++ (k, v') :: l₂)) =
        ("Apollo", scoreApollo sd (l₁ ++ (k, v') :: l₂)) := by
      apply bestOf_dominant_head
      intro q hq
      exact hdom q hq
    simp only [detect_engine, hbest]
    rw [if_neg (by omega : ¬ scoreApollo sd (l₁ ++ (k, v') :: l₂) = 0)]

/-- C6 (witness for the amended theorem): appending `Apollo` to a header
value of a collision-free mapping raises the Apollo score from 0 to 3
and the classifier selects Apollo. -/
theorem apollo_injection_raises_score_witness :
    scoreApollo ⟨none⟩ [("X-Header", "fooApollo"), ("Y", "bar")] =
      scoreApollo ⟨none⟩ [("X-Header", "foo"), ("Y", "bar")] + 3 ∧
    (detect_engine ⟨none⟩ [("X-Header", "fooApollo"), ("Y", "bar")]).engine = "Apollo" :=
  ⟨(apollo_injection_raises_score ⟨none⟩ [] [("Y", "bar")] "X-Header" "foo" "fooApollo"
      (by decide) (by decide) (by decide)).1,
   (apollo_injection_raises_score ⟨none⟩ [] [("Y", "bar")] "X-Header" "foo" "fooApollo"
      (by decide) (by decide) (by decide)).2 (by decide)⟩

/-- C7: the audit orchestrator invokes every catalog entry exactly once
(the output is a permutation of the per-entry findings), returns the
findings sorted by title, and — because the result is re-sorted and
probe titles are unique per the `Finding` contract — any permutation of
the catalog produces the identical output list. -/
theorem audit_sorted_permutation_invariant (target : String)
    (headers graphcopHeaders : List (String × String)) (catalog : List Probe) :
    List.Perm (run_graphql_cop_audit target headers graphcopHeaders catalog)
      (catalog.map (applyProbe target (baseHeadersOf graphcopHeaders headers))) ∧
    (run_graphql_cop_audit target headers graphcopHeaders catalog).Sorted findingLe ∧
    (∀ catalog₂ : List Probe,
      List.Perm catalog₂ catalog →
      (catalog.map (fun t =>
        (applyProbe target (baseHeadersOf graphcopHeaders headers) t).title)).Nodup →
      run_graphql_cop_audit target headers graphcopHeaders catalog₂ =
        run_graphql_cop_audit target headers graphcopHeaders catalog) := by
  refine ⟨List.perm_insertionSort _ _, List.sorted_insertionSort _ _, ?_⟩
  intro catalog₂ hperm hnd
  have hmapperm : List.Perm
      (catalog₂.map (applyProbe target (baseHeadersOf graphcopHeaders headers)))
      (catalog.map (applyProbe target (baseHeadersOf graphcopHeaders headers))) :=
    hperm.map _
  have hp : List.Perm (run_graphql_cop_audit target headers graphcopHeaders catalog₂)
      (run_graphql_cop_audit target headers graphcopHeaders catalog) :=
    ((List.perm_insertionSort _ _).trans hmapperm).trans
      (List.perm_insertionSort _ _).symm
  have htp : List.Perm
      ((run_graphql_cop_audit target headers graphcopHeaders catalog₂).map Finding.title)
      ((catalog.map (applyProbe target (baseHeadersOf graphcopHeaders headers))).map
        Finding.title) :=
    ((List.perm_insertionSort _ _).trans hmapperm).map Finding.title
  have hnd₂ :
      ((run_graphql_cop_audit target headers graphcopHeaders catalog₂).map
        Finding.title).Nodup := by
    refine htp.nodup_iff.mpr ?_
    simpa [List.map_map, Function.comp] using hnd
  exact sorted_perm_nodup_titles_eq _ _ hp
    (List.sorted_insertionSort _ _) (List.sorted_insertionSort _ _) hnd₂

/-- C7 (witness): two concrete probes, run in both orders, give the same
sorted output. -/
theorem audit_sorted_permutation_invariant_witness :
    run_graphql_cop_audit "t" [] [] [probeB, probeA] =
      run_graphql_cop_audit "t" [] [] [probeA, probeB] ∧
    (run_graphql_cop_audit "t" [] [] [probeA, probeB]).Sorted findingLe :=
  ⟨(audit_sorted_permutation_invariant "t" [] [] [probeA, probeB]).2.2 [probeB, probeA]
      (List.Perm.swap probeA probeB []) (by decide),
   (audit_sorted_permutation_invariant "t" [] [] [probeA, probeB]).2.1⟩

/-- C8: whenever some signal is non-zero, the classifier's selected
engine is exactly the first entry of the fixed declaration order
(Apollo, Hasura, graphene-python, PostGraphile, Ariadne, Hot Chocolate)
that attains the maximal score: ties go to the first-declared engine,
deterministically. -/
theorem detect_engine_first_declared_tie (sd : SchemaData) (hs : List (String × String))
    (h : ∃ p ∈ scoreTable sd hs, 0 < p.2) :
    some ((detect_engine sd hs).engine) = specFirstMaxEngine (scoreTable sd hs) := by
  have hpos : 0 < (bestOf (scoreTable sd hs)).2 := by
    obtain ⟨p, hp, hpp⟩ := h
    have := bestOf_ge_all (scoreTable sd hs) p hp
    omega
  have hengine : (detect_engine sd hs).engine = (bestOf (scoreTable sd hs)).1 := by
    simp only [detect_engine]
    rw [if_neg (by omega : ¬ (bestOf (scoreTable sd hs)).2 = 0)]
  rw [hengine]
  exact (bestOf_eq_firstMax ("Apollo", scoreApollo sd hs)
    [("Hasura", scoreHasura sd hs),
     ("graphene-python", scoreGraphene sd hs),
     ("PostGraphile", scorePostGraphile sd hs),
     ("Ariadne", scoreAriadne sd hs),
     ("Hot Chocolate", scoreHotChocolate sd hs)]).symm

/-- C8 (witness): with both `apollo` and `hasura` in the header blob the
scores tie at 3 and the first-declared engine, Apollo, is selected. -/
theorem detect_engine_first_declared_tie_witness :
    some ((detect_engine ⟨none⟩ [("X", "apollo hasura")]).engine) =
      specFirstMaxEngine (scoreTable ⟨none⟩ [("X", "apollo hasura")]) ∧
    (detect_engine ⟨none⟩ [("X", "apollo hasura")]).engine = "Apollo" :=
  ⟨detect_engine_first_declared_tie ⟨none⟩ [("X", "apollo hasura")]
      ⟨("Apollo", 3), by decide, by decide⟩,
   by decide⟩

/-- C9: the spec scenario — OBJECT `User` with field `posts : LIST of
OBJECT Post` and object type `Post` also present — yields exactly one
edge, `User -> Post`, labelled `posts`, between the two nodes. -/
theorem scenario_user_post_single_edge :
    (build_schema_artifacts userPostSD).graph.edges =
      [⟨"User->Post:posts", "User", "Post", some "posts"⟩] ∧
    (build_schema_artifacts userPostSD).graph.nodes =
      [⟨"User", "User"⟩, ⟨"Post", "Post"⟩] := by
  constructor <;> decide

/-- C10: every emitted edge has both endpoints among the emitted node
ids — no dangling edges, for any schema input. -/
theorem graph_edges_endpoints_in_nodes (sd : SchemaData) :
    ∀ e ∈ (build_schema_artifacts sd).graph.edges,
      (∃ n ∈ (build_schema_artifacts sd).graph.nodes, n.id = e.source) ∧
      (∃ n ∈ (build_schema_artifacts sd).graph.nodes, n.id = e.target) :=
  edge_endpoints_mem_nodes sd

/-- C10 (witness): the scenario edge has both endpoints among the
scenario nodes. -/
theorem graph_edges_endpoints_in_nodes_witness :
    (∃ n ∈ (build_schema_artifacts userPostSD).graph.nodes, n.id = "User") ∧
    (∃ n ∈ (build_schema_artifacts userPostSD).graph.nodes, n.id = "Post") :=
  graph_edges_endpoints_in_nodes userPostSD
    ⟨"User->Post:posts", "User", "Post", some "posts"⟩ (by decide)
